import Mathlib

/-!
Verification development for calendar_sync.py, a one-way Exchange to Google
Calendar synchronizer.  The source program is embedded shallowly: instants are
integers counting seconds since the Unix epoch, the configured timezone is a
function giving the UTC offset (in seconds) at an instant, the external SHA-1
hex digest is an abstract parameter `sha1 : String → String`, and the Google
Calendar event collection is an association list keyed by iCalUID, mirroring
the dictionary built by get_events_from_google_calendar.  The reconciliation
loop of main is modelled as a pure function producing a list of mutations
(update / import / delete) exactly in the order the program issues them.
-/

set_option maxRecDepth 8192

namespace CalendarSync

/-! ## Source data model (pyexchange events, as consumed by the program) -/

/-- One attendee or organizer record of a source (Exchange) event:
fields `.name`, `.email`, `.response` as read by transform_event. -/
structure Person where
  name : String
  email : String
  response : String
  deriving DecidableEq, Repr

/-- One raw source event, with the fields the program reads: `.id`,
`.subject`, `.location`, `.start`, `.end` (here `end_`, seconds since the
epoch, UTC), `.organizer`, `.attendees`. -/
structure ExchangeEvent where
  id : String
  subject : String
  location : String
  start : Int
  end_ : Int
  organizer : Option Person
  attendees : List Person
  deriving DecidableEq, Repr

/-! ## Dates and times

`civilFromDays` converts a count of days since 1970-01-01 to a civil
(year, month, day) triple, the standard civil-from-days calculation; it lets
the embedding render `date.isoformat()` and `datetime.isoformat()` strings. -/

def civilFromDays (z0 : Int) : Int × Int × Int :=
  let z := z0 + 719468
  let era := z / 146097
  let doe := z - era * 146097
  let yoe := (doe - doe / 1460 + doe / 36524 - doe / 146096) / 365
  let y := yoe + era * 400
  let doy := doe - (365 * yoe + yoe / 4 - yoe / 100)
  let mp := (5 * doy + 2) / 153
  let d := doy - (153 * mp + 2) / 5 + 1
  let m := mp + (if mp < 10 then 3 else -9)
  (y + (if m ≤ 2 then 1 else 0), m, d)

/-- Zero-pad a (nonnegative) number to two digits, as strftime does. -/
def pad2 (n : Int) : String :=
  if n < 10 then "0" ++ toString n else toString n

/-- Zero-pad a year to four digits, as date.isoformat does. -/
def pad4 (n : Int) : String :=
  if n < 10 then "000" ++ toString n
  else if n < 100 then "00" ++ toString n
  else if n < 1000 then "0" ++ toString n
  else toString n

/-- `date.isoformat()` for the date `day` days after 1970-01-01. -/
def dateIso (day : Int) : String :=
  match civilFromDays day with
  | (y, m, d) => pad4 y ++ "-" ++ pad2 m ++ "-" ++ pad2 d

/-- `datetime.isoformat()` for a UTC-aware instant (seconds since epoch). -/
def dtIso (t : Int) : String :=
  let s := t % 86400
  dateIso (t / 86400) ++ "T" ++ pad2 (s / 3600) ++ ":" ++ pad2 ((s / 60) % 60)
    ++ ":" ++ pad2 (s % 60) ++ "+00:00"

/-- `dt.astimezone(tz).date()` as a day number: the local civil date (days
since epoch) of instant `t` under the timezone offset function `tzOff`. -/
def localDay (tzOff : Int → Int) (t : Int) : Int :=
  (t + tzOff t) / 86400

/-! ## The sync window (module-level start_date / end_date) -/

/-- `start_date = datetime.now() - timedelta(days=abs(DaysPast))`. -/
def start_date (now : Int) (daysPast : Int) : Int :=
  now - (daysPast.natAbs : Int) * 86400

/-- `end_date = datetime.now() + timedelta(days=abs(DaysFuture))`. -/
def end_date (now : Int) (daysFuture : Int) : Int :=
  now + (daysFuture.natAbs : Int) * 86400

/-! ## Attendee email filtering

transform_event keeps an attendee only when
`re.match(r"[^@]+@[^@]+\.[^@]+", person.email)` succeeds.  re.match anchors
at the start of the string only, so this is a prefix match.  `reMatchEmail`
is the embedding of that test: one or more non-@ characters, an @, then a
tail containing one or more non-@ characters, a dot, and at least one
further non-@ character, with arbitrary trailing characters allowed. -/

/-- Scan the part after the first @: succeed once a dot preceded by at least
one non-@ character (tracked by `seenB`) is followed by a non-@ character. -/
def emailTail (seenB : Bool) : List Char → Bool
  | [] => false
  | ch :: tl =>
    if seenB && (ch == '.') && (match tl with | [] => false | c :: _ => c != '@') then true
    else if ch == '@' then false
    else emailTail true tl

/-- Scan for the first @, requiring at least one character before it. -/
def emailAfterFirstAt : List Char → Bool
  | [] => false
  | c :: tl => if c == '@' then emailTail false tl else emailAfterFirstAt tl

/-- Embedding of `re.match(r"[^@]+@[^@]+\.[^@]+", s) is not None`. -/
def reMatchEmail (s : String) : Bool :=
  match s.data with
  | [] => false
  | c :: tl => if c == '@' then false else emailAfterFirstAt tl

/-- The shape named by the specification, read over the ENTIRE email: one or
more non-@ characters, then @, then one or more non-@ characters, then a
dot, then one or more non-@ characters reaching the end of the string.
This is the property side of the claim about attendee filtering; it differs
from `reMatchEmail` because re.match does not anchor at the end. -/
def fullTail (seenB : Bool) : List Char → Bool
  | [] => false
  | ch :: tl =>
    if seenB && (ch == '.') && (match tl with | [] => false | c :: t => (c != '@') && t.all (fun x => x != '@')) then true
    else if ch == '@' then false
    else fullTail true tl

/-- Scan for the first @ of the full-shape reading. -/
def fullAfterFirstAt : List Char → Bool
  | [] => false
  | c :: tl => if c == '@' then fullTail false tl else fullAfterFirstAt tl

/-- The whole email consists of `local@domain.tld`: non-@ chars, @, non-@
chars, a dot, non-@ chars, with nothing else after. -/
def isFullEmailShape (s : String) : Bool :=
  match s.data with
  | [] => false
  | c :: tl => if c == '@' then false else fullAfterFirstAt tl

/-! ## Response status mapping -/

/-- The RESPONSE_MAPPING constant of the program. -/
def RESPONSE_MAPPING : List (String × String) :=
  [("Unknown", "needsAction"), ("Accepted", "accepted"),
   ("TentativelyAccepted", "tentative"), ("Declined", "declined")]

/-- `RESPONSE_MAPPING.get(r, 'needsAction')`. -/
def mapResponse (r : String) : String :=
  (RESPONSE_MAPPING.lookup r).getD ("needsAction")

/-! ## The normalized event body -/

/-- A start/end field of the event body: either a timed instant
`{'dateTime': ..., 'timeZone': ...}` or an all-day `{'date': ...}`. -/
inductive TimeField where
  | timed (dateTime : String) (timeZone : String)
  | date (d : String)
  deriving DecidableEq, Repr

/-- One entry of the body's attendees list.  `displayName = none` models a
dictionary with no displayName key (the appended calendar-address entry). -/
structure Attendee where
  displayName : Option String
  email : String
  responseStatus : String
  deriving DecidableEq, Repr

/-- The event body built by transform_event.  `organizer` is the pair
(displayName, email), each null when the source event has no organizer.
`description` carries the content hash, set last. -/
structure EventBody where
  iCalUID : String
  summary : String
  location : String
  start : TimeField
  end_ : TimeField
  organizer : Option String × Option String
  attendees : List Attendee
  remindersUseDefault : Bool
  description : String
  deriving DecidableEq, Repr

/-! ## Canonical serialization (json.dumps(event_body, sort_keys=True))

The serialization renders the body dictionary as json.dumps does with
sort_keys=True: keys in ascending order (attendees, end, iCalUID, location,
organizer, reminders, start, summary), `": "` and `", "` separators.  The
description key is not rendered because hash_event is called before the
description field is set. -/

def jsonEscapeChar (c : Char) : List Char :=
  if c = '\\' then ['\\', '\\']
  else if c = '"' then ['\\', '"']
  else [c]

def jsonStr (s : String) : String :=
  "\"" ++ String.mk (s.data.flatMap jsonEscapeChar) ++ "\""

def jsonOptStr : Option String → String
  | none => "null"
  | some s => jsonStr s

def serAttendee (a : Attendee) : String :=
  match a.displayName with
  | some n =>
    "\x7b\"displayName\": " ++ jsonStr n ++ ", \"email\": " ++ jsonStr a.email
      ++ ", \"responseStatus\": " ++ jsonStr a.responseStatus ++ "\x7d"
  | none =>
    "\x7b\"email\": " ++ jsonStr a.email ++ ", \"responseStatus\": "
      ++ jsonStr a.responseStatus ++ "\x7d"

def serTime : TimeField → String
  | .timed dt tz =>
    "\x7b\"dateTime\": " ++ jsonStr dt ++ ", \"timeZone\": " ++ jsonStr tz ++ "\x7d"
  | .date d => "\x7b\"date\": " ++ jsonStr d ++ "\x7d"

def joinComma : List String → String
  | [] => ""
  | [s] => s
  | s :: t => s ++ ", " ++ joinComma t

/-- The key-sorted serialization of the body built by transform_event, at
the moment hash_event is applied: every field except description. -/
def serializeNoDesc (b : EventBody) : String :=
  "\x7b\"attendees\": [" ++ joinComma (b.attendees.map serAttendee) ++ "], "
    ++ "\"end\": " ++ serTime b.end_ ++ ", "
    ++ "\"iCalUID\": " ++ jsonStr b.iCalUID ++ ", "
    ++ "\"location\": " ++ jsonStr b.location ++ ", "
    ++ "\"organizer\": \x7b\"displayName\": " ++ jsonOptStr b.organizer.1
    ++ ", \"email\": " ++ jsonOptStr b.organizer.2 ++ "\x7d, "
    ++ "\"reminders\": \x7b\"useDefault\": "
    ++ (if b.remindersUseDefault then "true" else "false") ++ "\x7d, "
    ++ "\"start\": " ++ serTime b.start ++ ", "
    ++ "\"summary\": " ++ jsonStr b.summary ++ "\x7d"

/-- hash_event: SHA-1 hex digest of the key-sorted JSON serialization; the
digest itself is the abstract parameter `sha1`. -/
def hash_event (sha1 : String → String) (b : EventBody) : String :=
  sha1 (serializeNoDesc b)

/-! ## Attendee sort (python sorted(attendees, key=lambda k: k['email']))

python compares strings by code points; `ltChars` is that comparison on the
character lists.  python sorted is a stable ascending sort; a stable
insertion sort computes the identical list. -/

/-- Code-point lexicographic strict comparison, python string `<`. -/
def ltChars : List Char → List Char → Bool
  | [], [] => false
  | [], _ :: _ => true
  | _ :: _, [] => false
  | a :: as, b :: bs => if a < b then true else if b < a then false else ltChars as bs

def insertA (a : Attendee) : List Attendee → List Attendee
  | [] => [a]
  | b :: t => if ltChars b.email.data a.email.data then b :: insertA a t else a :: b :: t

def sortAtt : List Attendee → List Attendee
  | [] => []
  | a :: t => insertA a (sortAtt t)

/-! ## transform_event -/

/-- transform_event: filter attendees by email shape, map response statuses,
append the destination calendar address as accepted, sort by email, detect
all-day events (duration an exact multiple of 86400 seconds), and store the
content hash in the description field. -/
def transform_event (sha1 : String → String) (calendarAddress : String)
    (tzOff : Int → Int) (event : ExchangeEvent) : EventBody :=
  let kept := event.attendees.filter (fun person => reMatchEmail person.email)
  let attendees0 := kept.map (fun person =>
    { displayName := some person.name, email := person.email,
      responseStatus := mapResponse person.response : Attendee })
  let attendees1 := attendees0 ++
    [{ displayName := none, email := calendarAddress, responseStatus := "accepted" }]
  let allDay := (event.end_ - event.start) % 86400 = 0
  let pre : EventBody :=
    { iCalUID := event.id
      summary := event.subject
      location := event.location
      start :=
        if allDay then TimeField.date (dateIso (localDay tzOff event.start))
        else TimeField.timed (dtIso event.start) ("UTC")
      end_ :=
        if allDay then TimeField.date (dateIso (localDay tzOff (event.end_ - 1)))
        else TimeField.timed (dtIso event.end_) ("UTC")
      organizer := (event.organizer.map Person.name, event.organizer.map Person.email)
      attendees := sortAtt attendees1
      remindersUseDefault := true
      description := "" }
  { pre with description := hash_event sha1 pre }

/-! ## Destination events and the reconciliation loop of main -/

/-- A previously materialized Google Calendar event, with the fields main
reads: the opaque `id`, the `summary`, and the stored `description` (the
content hash), which an event may lack (`none`), in which case
`google_event.get('description', '')` reads the empty string. -/
structure GoogleEvent where
  id : String
  summary : String
  description : Option String
  deriving DecidableEq, Repr

/-- The destination mapping: iCalUID keyed association list, as built by
get_events_from_google_calendar. -/
abbrev GMap := List (String × GoogleEvent)

/-- Dictionary access `m[k]` / `k in m` (first entry with the key). -/
def dlookup (k : String) : GMap → Option GoogleEvent
  | [] => none
  | p :: t => if p.1 = k then some p.2 else dlookup k t

/-- Dictionary removal `m.pop(k)` (drops every entry with the key; on a
mapping with distinct keys this is exactly dict.pop). -/
def dpop (k : String) : GMap → GMap
  | [] => []
  | p :: t => if p.1 = k then dpop k t else p :: dpop k t

/-- A mutation issued against the destination calendar. -/
inductive Mutation where
  | update (eventId : String) (body : EventBody)
  | importNew (body : EventBody)
  | delete (eventId : String)
  deriving DecidableEq, Repr

/-- The decision main takes for one transformed event body against the
current working mapping (update when hashes differ, nothing when equal, an
insert when unmatched); the mutations only, without the pop. -/
def stepMuts (b : EventBody) (m : GMap) : List Mutation :=
  match dlookup b.iCalUID m with
  | some g =>
    if b.description ≠ g.description.getD "" then [Mutation.update g.id b] else []
  | none => [Mutation.importNew b]

/-- The first loop of main: process each transformed body against the
working mapping, popping matched entries; returns the remaining mapping and
the issued create/update mutations in order. -/
def processEvents : List EventBody → GMap → GMap × List Mutation
  | [], m => (m, [])
  | b :: rest, m =>
    match dlookup b.iCalUID m with
    | some g =>
      let tail := processEvents rest (dpop b.iCalUID m)
      (tail.1,
        (if b.description ≠ g.description.getD "" then [Mutation.update g.id b] else [])
          ++ tail.2)
    | none =>
      let tail := processEvents rest m
      (tail.1, Mutation.importNew b :: tail.2)

/-- The whole reconciliation pass of main: the create/update mutations of
the first loop followed by one delete per entry left in the working
mapping. -/
def runSync (bodies : List EventBody) (m : GMap) : List Mutation :=
  let r := processEvents bodies m
  r.2 ++ r.1.map (fun p => Mutation.delete p.2.id)

/-! ## Effect of the mutations on the destination

For the idempotence claim the mutations of a run are replayed onto the
destination mapping.  An update rewrites the event with the targeted id from
the new body (the destination keeps its opaque id); an import appends a new
event whose fresh opaque id is chosen by the destination (`newId`); a delete
removes the event with the targeted id. -/

/-- The destination event that materializes a body. -/
def mkEvent (eid : String) (b : EventBody) : GoogleEvent :=
  { id := eid, summary := b.summary, description := some b.description }

/-- Replace the event with destination id `eid` by the new body. -/
def mapUpd (eid : String) (b : EventBody) (m : GMap) : GMap :=
  m.map (fun p => if p.2.id = eid then (p.1, mkEvent eid b) else p)

/-- Remove the event with destination id `eid`. -/
def delById (eid : String) : GMap → GMap
  | [] => []
  | p :: t => if p.2.id = eid then delById eid t else p :: delById eid t

/-- Apply one mutation to the destination mapping. -/
def applyOne (newId : EventBody → String) (m : GMap) : Mutation → GMap
  | .update eid b => mapUpd eid b m
  | .importNew b => m ++ [(b.iCalUID, mkEvent (newId b) b)]
  | .delete eid => delById eid m

/-- Apply a list of mutations in order. -/
def applyMuts (newId : EventBody → String) (m : GMap) : List Mutation → GMap
  | [] => m
  | mu :: t => applyMuts newId (applyOne newId m mu) t

/-! ## Observations on the mutation list -/

/-- The canonical identifier a create/update mutation is about. -/
def mutUidOf : Mutation → Option String
  | .update _ b => some b.iCalUID
  | .importNew b => some b.iCalUID
  | .delete _ => none

/-- The create/update mutations issued for one canonical identifier. -/
def mutsFor (uid : String) : List Mutation → List Mutation
  | [] => []
  | mu :: t => if mutUidOf mu = some uid then mu :: mutsFor uid t else mutsFor uid t

/-- Occurrences of one mutation in a list. -/
def countMut (x : Mutation) : List Mutation → Nat
  | [] => 0
  | mu :: t => (if mu = x then 1 else 0) + countMut x t

/-- Entries of a mapping whose destination-local id is a given value. -/
def countId (x : String) : GMap → Nat
  | [] => 0
  | p :: t => (if p.2.id = x then 1 else 0) + countId x t

/-- Iterated dictionary removal. -/
def dropKeys : List String → GMap → GMap
  | [], m => m
  | k :: t, m => dropKeys t (dpop k m)

/-- The per-body decisions of the first loop, each taken against one fixed
mapping; with pairwise distinct identifiers this equals the mutation list
of processEvents. -/
def flatSteps : List EventBody → GMap → List Mutation
  | [], _ => []
  | b :: t, m => stepMuts b m ++ flatSteps t m

/-! ## Order facts for the attendee sort -/

theorem ltChars_iff_lt : ∀ a b : List Char, ltChars a b = true ↔ a < b := by
  intro a
  induction a with
  | nil =>
    intro b
    cases b with
    | nil =>
      simp only [ltChars, Bool.false_eq_true, false_iff]
      intro h
      cases h
    | cons y ys =>
      simp only [ltChars, true_iff]
      exact List.Lex.nil
  | cons x xs ih =>
    intro b
    cases b with
    | nil =>
      simp only [ltChars, Bool.false_eq_true, false_iff]
      intro h
      cases h
    | cons y ys =>
      simp only [ltChars]
      by_cases hxy : x < y
      · simp only [if_pos hxy, true_iff]
        exact List.Lex.rel hxy
      · rw [if_neg hxy]
        by_cases hyx : y < x
        · simp only [if_pos hyx, Bool.false_eq_true, false_iff]
          intro h
          cases h with
          | cons h' => exact absurd hyx (lt_irrefl _)
          | rel h' => exact hxy h'
        · rw [if_neg hyx]
          have hxy' : x = y := le_antisymm (not_lt.mp hyx) (not_lt.mp hxy)
          subst hxy'
          rw [ih ys]
          constructor
          · intro h
            exact List.Lex.cons h
          · intro h
            cases h with
            | cons h' => exact h'
            | rel h' => exact absurd h' hxy

theorem le_of_ltChars_eq_false {a b : String} (h : ltChars a.data b.data = false) : b ≤ a := by
  have h0 : ltChars a.data b.data ≠ true := by
    rw [h]
    exact Bool.false_ne_true
  have h1 : ¬ a.data < b.data := fun hl => h0 ((ltChars_iff_lt _ _).mpr hl)
  have h2 : ¬ a < b := by
    rw [String.lt_iff_toList_lt]
    exact h1
  exact not_lt.mp h2

theorem lt_of_ltChars_eq_true {a b : String} (h : ltChars a.data b.data = true) : a < b := by
  rw [String.lt_iff_toList_lt]
  exact (ltChars_iff_lt _ _).mp h

theorem mem_insertA {x a : Attendee} : ∀ {l : List Attendee}, x ∈ insertA a l ↔ x = a ∨ x ∈ l := by
  intro l
  induction l with
  | nil => simp [insertA]
  | cons b t ih =>
    simp only [insertA]
    split
    · simp only [List.mem_cons, ih]
      tauto
    · simp only [List.mem_cons]

theorem mem_sortAtt {x : Attendee} : ∀ {l : List Attendee}, x ∈ sortAtt l ↔ x ∈ l := by
  intro l
  induction l with
  | nil => simp [sortAtt]
  | cons a t ih => simp [sortAtt, mem_insertA, ih]

theorem pairwise_insertA {a : Attendee} : ∀ {l : List Attendee},
    l.Pairwise (fun x y => x.email ≤ y.email) →
    (insertA a l).Pairwise (fun x y => x.email ≤ y.email) := by
  intro l
  induction l with
  | nil =>
    intro _
    simp [insertA]
  | cons b t ih =>
    intro h
    rw [List.pairwise_cons] at h
    obtain ⟨hb, ht⟩ := h
    simp only [insertA]
    split
    · rename_i hlt
      rw [List.pairwise_cons]
      refine ⟨?_, ih ht⟩
      intro y hy
      rcases mem_insertA.mp hy with rfl | hy'
      · exact le_of_lt (lt_of_ltChars_eq_true hlt)
      · exact hb y hy'
    · rename_i hnlt
      have hab : a.email ≤ b.email :=
        le_of_ltChars_eq_false (Bool.not_eq_true _ ▸ eq_false_of_ne_true hnlt)
      rw [List.pairwise_cons]
      refine ⟨?_, List.pairwise_cons.mpr ⟨hb, ht⟩⟩
      intro y hy
      rcases List.mem_cons.mp hy with rfl | hy'
      · exact hab
      · exact le_trans hab (hb y hy')

theorem pairwise_sortAtt : ∀ (l : List Attendee),
    (sortAtt l).Pairwise (fun x y => x.email ≤ y.email) := by
  intro l
  induction l with
  | nil => simp [sortAtt]
  | cons a t ih => exact pairwise_insertA ih

/-! ## Projections of transform_event -/

theorem transform_attendees (sha1 : String → String) (calAddr : String) (tzOff : Int → Int)
    (e : ExchangeEvent) :
    (transform_event sha1 calAddr tzOff e).attendees =
      sortAtt (((e.attendees.filter (fun p => reMatchEmail p.email)).map (fun person =>
        { displayName := some person.name, email := person.email,
          responseStatus := mapResponse person.response : Attendee })) ++
        [{ displayName := none, email := calAddr, responseStatus := "accepted" }]) := rfl

theorem transform_iCalUID (sha1 : String → String) (calAddr : String) (tzOff : Int → Int)
    (e : ExchangeEvent) :
    (transform_event sha1 calAddr tzOff e).iCalUID = e.id := rfl

theorem transform_start (sha1 : String → String) (calAddr : String) (tzOff : Int → Int)
    (e : ExchangeEvent) :
    (transform_event sha1 calAddr tzOff e).start =
      (if (e.end_ - e.start) % 86400 = 0 then TimeField.date (dateIso (localDay tzOff e.start))
       else TimeField.timed (dtIso e.start) ("UTC")) := rfl

theorem transform_end (sha1 : String → String) (calAddr : String) (tzOff : Int → Int)
    (e : ExchangeEvent) :
    (transform_event sha1 calAddr tzOff e).end_ =
      (if (e.end_ - e.start) % 86400 = 0 then TimeField.date (dateIso (localDay tzOff (e.end_ - 1)))
       else TimeField.timed (dtIso e.end_) ("UTC")) := rfl

/-! ## Concrete sample data used by counterexamples and witnesses -/

/-- An all-day-duration event from 2024-01-01T06:00 to 2024-01-02T06:00 UTC
(86400 seconds, but not aligned to midnight). -/
def sampleShifted : ExchangeEvent :=
  { id := "u", subject := "s", location := "l", start := 1704088800,
    end_ := 1704175200, organizer := none, attendees := [] }

/-- The all-day event of the specification example: 2024-01-01T00:00 to
2024-01-03T00:00 UTC (172800 seconds). -/
def sampleMidnight : ExchangeEvent :=
  { id := "u", subject := "s", location := "l", start := 1704067200,
    end_ := 1704240000, organizer := none, attendees := [] }

/-- An event whose only attendee carries the destination calendar's own
address. -/
def sampleDupAddress : ExchangeEvent :=
  { id := "u", subject := "s", location := "l", start := 0, end_ := 1,
    organizer := none,
    attendees := [{ name := "P", email := "c@d.e", response := "Accepted" }] }

/-- An event whose only attendee has an email that re.match accepts as a
prefix although the whole string is not local@domain.tld shaped. -/
def sampleOddEmail : ExchangeEvent :=
  { id := "u", subject := "s", location := "l", start := 0, end_ := 1,
    organizer := none,
    attendees := [{ name := "P", email := "a@b.c@d", response := "Accepted" }] }

/-- An event with one well-formed attendee. -/
def sampleGoodEmail : ExchangeEvent :=
  { id := "u", subject := "s", location := "l", start := 0, end_ := 1,
    organizer := none,
    attendees := [{ name := "P", email := "a@b.co", response := "Accepted" }] }

/-! ## Claims C4 to C9 -/

/-- Claim C4, amended: when the duration is an exact multiple of 86400
seconds, the start becomes the start instant's local date and the end
becomes the local date of the instant one second before the end instant
(not the local end date minus one day); every other event keeps explicit
UTC start/end instants. -/
theorem claim_C4 (sha1 : String → String) (calAddr : String) (tzOff : Int → Int)
    (e : ExchangeEvent) :
    ((e.end_ - e.start) % 86400 = 0 →
      (transform_event sha1 calAddr tzOff e).start
          = TimeField.date (dateIso (localDay tzOff e.start)) ∧
        (transform_event sha1 calAddr tzOff e).end_
          = TimeField.date (dateIso (localDay tzOff (e.end_ - 1)))) ∧
    ((e.end_ - e.start) % 86400 ≠ 0 →
      (transform_event sha1 calAddr tzOff e).start = TimeField.timed (dtIso e.start) ("UTC") ∧
        (transform_event sha1 calAddr tzOff e).end_ = TimeField.timed (dtIso e.end_) ("UTC")) := by
  constructor
  · intro h
    rw [transform_start, transform_end, if_pos h, if_pos h]
    exact ⟨rfl, rfl⟩
  · intro h
    rw [transform_start, transform_end, if_neg h, if_neg h]
    exact ⟨rfl, rfl⟩

/-- Claim C4 counterexample: for the 86400-second event from 06:00 to 06:00
UTC the program stores the local date of (end - 1s), namely 2024-01-02,
while the claimed local-end-date-minus-one-day is 2024-01-01. -/
theorem claim_C4_cex :
    (transform_event (fun _ => ("h")) ("c@d.e") (fun _ => 0) sampleShifted).end_
        = TimeField.date ("2024-01-02") ∧
      TimeField.date (dateIso (localDay (fun _ => 0) sampleShifted.end_ - 1))
        = TimeField.date ("2024-01-01") ∧
      (transform_event (fun _ => ("h")) ("c@d.e") (fun _ => 0) sampleShifted).end_
        ≠ TimeField.date (dateIso (localDay (fun _ => 0) sampleShifted.end_ - 1)) := by
  refine ⟨by decide, by decide, by decide⟩

/-- Claim C4 witness: the specification example event normalizes to the
all-day range 2024-01-01 to 2024-01-02. -/
theorem claim_C4_witness :
    (sampleMidnight.end_ - sampleMidnight.start) % 86400 = 0 ∧
    (transform_event (fun _ => ("h")) ("c@d.e") (fun _ => 0) sampleMidnight).start
        = TimeField.date ("2024-01-01") ∧
      (transform_event (fun _ => ("h")) ("c@d.e") (fun _ => 0) sampleMidnight).end_
        = TimeField.date ("2024-01-02") := by
  refine ⟨by decide, ?_, ?_⟩
  · have h := (claim_C4 (fun _ => ("h")) ("c@d.e") (fun _ => 0) sampleMidnight).1 (by decide)
    rw [h.1]
    decide
  · have h := (claim_C4 (fun _ => ("h")) ("c@d.e") (fun _ => 0) sampleMidnight).1 (by decide)
    rw [h.2]
    decide

/-- Claim C5: the description field of every normalized body is the SHA-1
hex digest (the abstract external digest `sha1`) of the key-sorted
serialization of all the body's other fields, computed before the
description is set; `serializeNoDesc` reads every field except the
description. -/
theorem claim_C5 (sha1 : String → String) (calAddr : String) (tzOff : Int → Int)
    (e : ExchangeEvent) :
    (transform_event sha1 calAddr tzOff e).description
      = sha1 (serializeNoDesc (transform_event sha1 calAddr tzOff e)) := rfl

/-- Claim C6, amended: the normalized attendees list is sorted ascending by
email and always contains the destination calendar's own address with
responseStatus accepted (and no displayName key); entries are NOT
deduplicated by email. -/
theorem claim_C6 (sha1 : String → String) (calAddr : String) (tzOff : Int → Int)
    (e : ExchangeEvent) :
    (transform_event sha1 calAddr tzOff e).attendees.Pairwise (fun x y => x.email ≤ y.email) ∧
    ∃ a ∈ (transform_event sha1 calAddr tzOff e).attendees,
      a.displayName = none ∧ a.email = calAddr ∧ a.responseStatus = "accepted" := by
  constructor
  · rw [transform_attendees]
    exact pairwise_sortAtt _
  · refine ⟨{ displayName := none, email := calAddr, responseStatus := "accepted" },
      ?_, rfl, rfl, rfl⟩
    rw [transform_attendees]
    exact mem_sortAtt.mpr (List.mem_append.mpr (Or.inr (List.mem_singleton.mpr rfl)))

/-- Claim C6 counterexample: when a source attendee already carries the
destination calendar's address, the normalized list contains two entries
with the same email, so it is not deduplicated by email. -/
theorem claim_C6_cex :
    ¬ (((transform_event (fun _ => ("h")) ("c@d.e") (fun _ => 0) sampleDupAddress).attendees.map
        Attendee.email).Nodup) := by decide

/-- Claim C7, amended: a source attendee is included exactly when re.match
accepts its email, i.e. when a PREFIX of the email has the
local@domain.tld shape (re.match anchors only at the start); the email
"not-an-email" is excluded and "a@b.co" is included; malformed addresses
are silently dropped (the filter is total). -/
theorem claim_C7 (sha1 : String → String) (calAddr : String) (tzOff : Int → Int)
    (e : ExchangeEvent) (person : Person) (hp : person ∈ e.attendees) :
    ((∃ a ∈ (transform_event sha1 calAddr tzOff e).attendees,
        a.displayName = some person.name ∧ a.email = person.email) ↔
      reMatchEmail person.email = true) ∧
    reMatchEmail ("not-an-email") = false ∧ reMatchEmail ("a@b.co") = true := by
  refine ⟨?_, by decide, by decide⟩
  constructor
  · rintro ⟨a, ha, hdn, hem⟩
    rw [transform_attendees] at ha
    have ha' := mem_sortAtt.mp ha
    rcases List.mem_append.mp ha' with hmem | hcal
    · obtain ⟨q, hq, rfl⟩ := List.mem_map.mp hmem
      have hq' := List.mem_filter.mp hq
      rw [← hem]
      exact hq'.2
    · rw [List.mem_singleton] at hcal
      subst hcal
      exact Option.noConfusion hdn
  · intro hmatch
    rw [transform_attendees]
    refine ⟨{ displayName := some person.name, email := person.email, responseStatus := mapResponse person.response }, ?_, rfl, rfl⟩
    exact mem_sortAtt.mpr (List.mem_append.mpr (Or.inl (List.mem_map.mpr
      ⟨person, List.mem_filter.mpr ⟨hp, hmatch⟩, rfl⟩)))

/-- Claim C7 counterexample: the attendee email "a@b.c@d" is included by
the program (re.match accepts the prefix "a@b.c"), although the whole
email does not have the local@domain.tld shape. -/
theorem claim_C7_cex :
    (∃ a ∈ (transform_event (fun _ => ("h")) ("cal@x.y") (fun _ => 0) sampleOddEmail).attendees,
      a.displayName = some ("P") ∧ a.email = "a@b.c@d") ∧
    isFullEmailShape ("a@b.c@d") = false := by decide

/-- Claim C7 witness: the attendee with email "a@b.co" is included. -/
theorem claim_C7_witness :
    ((∃ a ∈ (transform_event (fun _ => ("h")) ("cal@x.y") (fun _ => 0) sampleGoodEmail).attendees,
        a.displayName = some ("P") ∧ a.email = "a@b.co") ↔ reMatchEmail ("a@b.co") = true) ∧
    reMatchEmail ("not-an-email") = false ∧ reMatchEmail ("a@b.co") = true :=
  claim_C7 (fun _ => ("h")) ("cal@x.y") (fun _ => 0) sampleGoodEmail
    { name := "P", email := "a@b.co", response := "Accepted" } (by decide)

/-- Claim C8: the response mapping sends Unknown to needsAction, Accepted
to accepted, TentativelyAccepted to tentative, Declined to declined, any
other source value to needsAction, and each included attendee's entry
carries the mapped status. -/
theorem claim_C8 :
    (mapResponse ("Unknown") = "needsAction" ∧ mapResponse ("Accepted") = "accepted" ∧
      mapResponse ("TentativelyAccepted") = "tentative" ∧
      mapResponse ("Declined") = "declined") ∧
    (∀ r : String, r ≠ "Unknown" → r ≠ "Accepted" → r ≠ "TentativelyAccepted" →
      r ≠ "Declined" → mapResponse r = "needsAction") ∧
    (∀ (sha1 : String → String) (calAddr : String) (tzOff : Int → Int) (e : ExchangeEvent)
      (person : Person), person ∈ e.attendees → reMatchEmail person.email = true →
      ({ displayName := some person.name, email := person.email,
         responseStatus := mapResponse person.response } : Attendee)
        ∈ (transform_event sha1 calAddr tzOff e).attendees) := by
  refine ⟨by decide, ?_, ?_⟩
  · intro r h1 h2 h3 h4
    have e1 : (r == "Unknown") = false := by simp [h1]
    have e2 : (r == "Accepted") = false := by simp [h2]
    have e3 : (r == "TentativelyAccepted") = false := by simp [h3]
    have e4 : (r == "Declined") = false := by simp [h4]
    simp [mapResponse, RESPONSE_MAPPING, List.lookup, e1, e2, e3, e4]
  · intro sha1 calAddr tzOff e person hp hmatch
    rw [transform_attendees]
    exact mem_sortAtt.mpr (List.mem_append.mpr (Or.inl (List.mem_map.mpr
      ⟨person, List.mem_filter.mpr ⟨hp, hmatch⟩, rfl⟩)))

/-- Claim C8 witness: an unmapped status defaults to needsAction, and the
included attendee of the sample event carries the mapped status. -/
theorem claim_C8_witness :
    mapResponse ("SomethingElse") = "needsAction" ∧
    ({ displayName := some ("P"), email := "a@b.co",
       responseStatus := mapResponse ("Accepted") } : Attendee)
      ∈ (transform_event (fun _ => ("h")) ("cal@x.y") (fun _ => 0) sampleGoodEmail).attendees :=
  ⟨claim_C8.2.1 ("SomethingElse") (by decide) (by decide) (by decide) (by decide),
   claim_C8.2.2 (fun _ => ("h")) ("cal@x.y") (fun _ => 0) sampleGoodEmail
     { name := "P", email := "a@b.co", response := "Accepted" } (by decide) (by decide)⟩

/-- Claim C9: the sync window runs from now minus the absolute value of
DaysPast days to now plus the absolute value of DaysFuture days, so the
window start is never after now and the window end is never before now,
for any (possibly negative) configured day counts. -/
theorem claim_C9 (now daysPast daysFuture : Int) :
    start_date now daysPast = now - |daysPast| * 86400 ∧
    end_date now daysFuture = now + |daysFuture| * 86400 ∧
    start_date now daysPast ≤ now ∧ now ≤ end_date now daysFuture := by
  refine ⟨?_, ?_, ?_, ?_⟩ <;>
    simp only [start_date, end_date, Int.abs_eq_natAbs] <;> omega

/-! ## Association list lemmas for the destination mapping -/

theorem dlookup_eq_none_iff {k : String} : ∀ {m : GMap},
    dlookup k m = none ↔ ∀ p ∈ m, p.1 ≠ k := by
  intro m
  induction m with
  | nil => simp [dlookup]
  | cons p t ih =>
    by_cases h : p.1 = k
    · simp only [dlookup, if_pos h]
      constructor
      · intro hc
        cases hc
      · intro hall
        exact absurd h (hall p (List.mem_cons_self p t))
    · simp only [dlookup, if_neg h, ih, List.mem_cons]
      constructor
      · intro hall q hq
        rcases hq with rfl | hq'
        · exact h
        · exact hall q hq'
      · intro hall q hq
        exact hall q (Or.inr hq)

theorem dlookup_mem {k : String} {g : GoogleEvent} : ∀ {m : GMap},
    dlookup k m = some g → (k, g) ∈ m := by
  intro m
  induction m with
  | nil =>
    intro h
    cases h
  | cons p t ih =>
    intro h
    simp only [dlookup] at h
    split at h
    · rename_i he
      injection h with h1
      rw [← he, ← h1]
      exact List.mem_cons_self p t
    · exact List.mem_cons_of_mem _ (ih h)

theorem mem_dpop {k : String} {q : String × GoogleEvent} : ∀ {m : GMap},
    q ∈ dpop k m ↔ q ∈ m ∧ q.1 ≠ k := by
  intro m
  induction m with
  | nil => simp [dpop]
  | cons p t ih =>
    by_cases h : p.1 = k
    · simp only [dpop, if_pos h, ih, List.mem_cons]
      constructor
      · rintro ⟨hq, hne⟩
        exact ⟨Or.inr hq, hne⟩
      · rintro ⟨hq | hq, hne⟩
        · subst hq
          exact absurd h hne
        · exact ⟨hq, hne⟩
    · simp only [dpop, if_neg h, List.mem_cons, ih]
      constructor
      · rintro (rfl | ⟨hq, hne⟩)
        · exact ⟨Or.inl rfl, h⟩
        · exact ⟨Or.inr hq, hne⟩
      · rintro ⟨rfl | hq, hne⟩
        · exact Or.inl rfl
        · exact Or.inr ⟨hq, hne⟩

theorem dlookup_dpop_ne {k k' : String} (hne : k' ≠ k) : ∀ {m : GMap},
    dlookup k' (dpop k m) = dlookup k' m := by
  intro m
  induction m with
  | nil => rfl
  | cons p t ih =>
    by_cases h : p.1 = k
    · rw [dpop, if_pos h, ih, dlookup, if_neg (fun hh : p.1 = k' => hne (by rw [← hh]; exact h))]
    · rw [dpop, if_neg h]
      by_cases h' : p.1 = k'
      · rw [dlookup, if_pos h', dlookup, if_pos h']
      · rw [dlookup, if_neg h', dlookup, if_neg h', ih]

theorem dlookup_dpop_self {k : String} {m : GMap} : dlookup k (dpop k m) = none :=
  dlookup_eq_none_iff.mpr (fun _p hp => (mem_dpop.mp hp).2)

theorem dpop_of_none {k : String} : ∀ {m : GMap}, dlookup k m = none → dpop k m = m := by
  intro m
  induction m with
  | nil =>
    intro _
    rfl
  | cons p t ih =>
    intro h
    simp only [dlookup] at h
    split at h
    · cases h
    · rename_i hne
      rw [dpop, if_neg hne, ih h]

theorem dpop_sublist (k : String) : ∀ (m : GMap), List.Sublist (dpop k m) m := by
  intro m
  induction m with
  | nil => exact List.Sublist.refl []
  | cons p t ih =>
    by_cases h : p.1 = k
    · rw [dpop, if_pos h]
      exact ih.cons p
    · rw [dpop, if_neg h]
      exact ih.cons₂ p

theorem mem_dropKeys {q : String × GoogleEvent} : ∀ (ks : List String) (m : GMap),
    q ∈ dropKeys ks m ↔ q ∈ m ∧ q.1 ∉ ks := by
  intro ks
  induction ks with
  | nil =>
    intro m
    simp [dropKeys]
  | cons k t ih =>
    intro m
    simp only [dropKeys, ih, mem_dpop, List.mem_cons]
    tauto

theorem dlookup_dropKeys {k : String} : ∀ (ks : List String) (m : GMap),
    dlookup k (dropKeys ks m) = if k ∈ ks then none else dlookup k m := by
  intro ks
  induction ks with
  | nil =>
    intro m
    simp [dropKeys]
  | cons k' t ih =>
    intro m
    by_cases hk : k = k'
    · subst hk
      rw [dropKeys, ih, if_pos (List.mem_cons_self k t)]
      split
      · rfl
      · exact dlookup_dpop_self
    · rw [dropKeys, ih, dlookup_dpop_ne hk]
      by_cases ht : k ∈ t
      · rw [if_pos ht, if_pos (List.mem_cons_of_mem k' ht)]
      · rw [if_neg ht, if_neg (fun hc => (List.mem_cons.mp hc).elim hk ht)]

theorem dropKeys_sublist : ∀ (ks : List String) (m : GMap), List.Sublist (dropKeys ks m) m := by
  intro ks
  induction ks with
  | nil =>
    intro m
    exact List.Sublist.refl m
  | cons k t ih =>
    intro m
    exact (ih (dpop k m)).trans (dpop_sublist k m)

/-! ## Shape of the reconciliation pass -/

theorem processEvents_fst : ∀ (bodies : List EventBody) (m : GMap),
    (processEvents bodies m).1 = dropKeys (bodies.map EventBody.iCalUID) m := by
  intro bodies
  induction bodies with
  | nil =>
    intro m
    rfl
  | cons b rest ih =>
    intro m
    cases hl : dlookup b.iCalUID m with
    | some g =>
      simp only [processEvents, hl, List.map_cons, dropKeys]
      exact ih (dpop b.iCalUID m)
    | none =>
      simp only [processEvents, hl, List.map_cons, dropKeys]
      rw [ih m, dpop_of_none hl]

theorem stepMuts_dpop_ne {b : EventBody} {k : String} (h : b.iCalUID ≠ k) (m : GMap) :
    stepMuts b (dpop k m) = stepMuts b m := by
  simp only [stepMuts, dlookup_dpop_ne h]

theorem flatSteps_congr : ∀ {bodies : List EventBody} {m1 m2 : GMap},
    (∀ b ∈ bodies, stepMuts b m1 = stepMuts b m2) →
    flatSteps bodies m1 = flatSteps bodies m2 := by
  intro bodies
  induction bodies with
  | nil =>
    intro m1 m2 _
    rfl
  | cons b t ih =>
    intro m1 m2 h
    simp only [flatSteps]
    rw [h b (List.mem_cons_self b t), ih (fun b' hb' => h b' (List.mem_cons_of_mem b hb'))]

theorem processEvents_snd : ∀ (bodies : List EventBody) (m : GMap),
    (bodies.map EventBody.iCalUID).Nodup →
    (processEvents bodies m).2 = flatSteps bodies m := by
  intro bodies
  induction bodies with
  | nil =>
    intro m _
    rfl
  | cons b rest ih =>
    intro m hnd
    rw [List.map_cons, List.nodup_cons] at hnd
    obtain ⟨hb, hrest⟩ := hnd
    cases hl : dlookup b.iCalUID m with
    | some g =>
      simp only [processEvents, hl, flatSteps, stepMuts]
      rw [ih (dpop b.iCalUID m) hrest, flatSteps_congr (fun b' hb' =>
        stepMuts_dpop_ne (show b'.iCalUID ≠ b.iCalUID from
          fun hc => hb (hc ▸ List.mem_map_of_mem EventBody.iCalUID hb')) m)]
    | none =>
      simp only [processEvents, hl, flatSteps, stepMuts]
      rw [ih m hrest]
      rfl

theorem processEvents_no_delete {x : String} : ∀ (bodies : List EventBody) (m : GMap),
    Mutation.delete x ∉ (processEvents bodies m).2 := by
  intro bodies
  induction bodies with
  | nil =>
    intro m h
    cases h
  | cons b rest ih =>
    intro m
    cases hl : dlookup b.iCalUID m with
    | some g =>
      simp only [processEvents, hl]
      intro hmem
      rcases List.mem_append.mp hmem with h1 | h2
      · revert h1
        split <;> simp
      · exact ih _ h2
    | none =>
      simp only [processEvents, hl, List.mem_cons]
      intro hmem
      rcases hmem with h1 | h2
      · cases h1
      · exact ih _ h2

/-! ## The mutations issued for one canonical identifier -/

theorem mutsFor_append (uid : String) : ∀ (l1 l2 : List Mutation),
    mutsFor uid (l1 ++ l2) = mutsFor uid l1 ++ mutsFor uid l2 := by
  intro l1 l2
  induction l1 with
  | nil => rfl
  | cons mu t ih =>
    show mutsFor uid (mu :: (t ++ l2)) = mutsFor uid (mu :: t) ++ mutsFor uid l2
    rw [mutsFor, mutsFor]
    split
    · rw [ih, List.cons_append]
    · exact ih

theorem mutsFor_stepMuts_self (b : EventBody) (m : GMap) :
    mutsFor b.iCalUID (stepMuts b m) = stepMuts b m := by
  cases hl : dlookup b.iCalUID m with
  | some g =>
    simp only [stepMuts, hl]
    split <;> simp [mutsFor, mutUidOf]
  | none => simp [stepMuts, hl, mutsFor, mutUidOf]

theorem mutsFor_stepMuts_ne {u : String} {b : EventBody} (h : u ≠ b.iCalUID) (m : GMap) :
    mutsFor u (stepMuts b m) = [] := by
  cases hl : dlookup b.iCalUID m with
  | some g =>
    simp only [stepMuts, hl]
    split <;> simp [mutsFor, mutUidOf, Ne.symm h]
  | none => simp [stepMuts, hl, mutsFor, mutUidOf, Ne.symm h]

theorem mutsFor_flatSteps_notin {u : String} : ∀ {bodies : List EventBody} (m : GMap),
    u ∉ bodies.map EventBody.iCalUID → mutsFor u (flatSteps bodies m) = [] := by
  intro bodies
  induction bodies with
  | nil =>
    intro m _
    rfl
  | cons b t ih =>
    intro m hu
    rw [List.map_cons, List.mem_cons] at hu
    push_neg at hu
    simp only [flatSteps, mutsFor_append, mutsFor_stepMuts_ne hu.1 m, ih m hu.2,
      List.nil_append]

theorem mutsFor_flatSteps_self : ∀ {bodies : List EventBody} {c : EventBody} (m : GMap),
    (bodies.map EventBody.iCalUID).Nodup → c ∈ bodies →
    mutsFor c.iCalUID (flatSteps bodies m) = stepMuts c m := by
  intro bodies
  induction bodies with
  | nil =>
    intro c m _ hc
    cases hc
  | cons b t ih =>
    intro c m hnd hc
    rw [List.map_cons, List.nodup_cons] at hnd
    obtain ⟨hb, ht⟩ := hnd
    rcases List.mem_cons.mp hc with rfl | hc'
    · simp only [flatSteps, mutsFor_append, mutsFor_stepMuts_self,
        mutsFor_flatSteps_notin m hb, List.append_nil]
    · have hne : c.iCalUID ≠ b.iCalUID :=
        fun hcc => hb (hcc ▸ List.mem_map_of_mem EventBody.iCalUID hc')
      simp only [flatSteps, mutsFor_append, mutsFor_stepMuts_ne hne m, ih m ht hc',
        List.nil_append]

theorem mutsFor_deletes (u : String) : ∀ (l : GMap),
    mutsFor u (l.map (fun p => Mutation.delete p.2.id)) = [] := by
  intro l
  induction l with
  | nil => rfl
  | cons p t ih => simp [mutsFor, mutUidOf, ih]

/-- The create/update mutations the whole run issues for the identifier of
a canonical event are exactly the decision taken against the original
mapping. -/
theorem runSync_mutsFor (bodies : List EventBody) (m : GMap)
    (hnd : (bodies.map EventBody.iCalUID).Nodup) (c : EventBody) (hc : c ∈ bodies) :
    mutsFor c.iCalUID (runSync bodies m) = stepMuts c m := by
  simp only [runSync]
  rw [mutsFor_append, processEvents_snd bodies m hnd, mutsFor_flatSteps_self m hnd hc,
    mutsFor_deletes, List.append_nil]

/-! ## Counting lemmas for deletions -/

theorem countMut_append (x : Mutation) : ∀ (l1 l2 : List Mutation),
    countMut x (l1 ++ l2) = countMut x l1 + countMut x l2 := by
  intro l1 l2
  induction l1 with
  | nil =>
    show countMut x l2 = countMut x [] + countMut x l2
    rw [countMut, Nat.zero_add]
  | cons mu t ih =>
    show countMut x (mu :: (t ++ l2)) = countMut x (mu :: t) + countMut x l2
    rw [countMut, countMut, ih, Nat.add_assoc]

theorem countMut_eq_zero {x : Mutation} : ∀ {l : List Mutation}, x ∉ l → countMut x l = 0 := by
  intro l
  induction l with
  | nil =>
    intro _
    rfl
  | cons mu t ih =>
    intro h
    rw [List.mem_cons] at h
    push_neg at h
    rw [countMut, if_neg (fun hc => h.1 hc.symm), ih h.2]

theorem countMut_delete_map {x : String} : ∀ (l : GMap),
    countMut (Mutation.delete x) (l.map (fun p => Mutation.delete p.2.id)) = countId x l := by
  intro l
  induction l with
  | nil => rfl
  | cons p t ih =>
    rw [List.map_cons, countMut, countId, ih]
    by_cases h : p.2.id = x
    · rw [if_pos (by rw [h]), if_pos h]
    · rw [if_neg (fun hc => h (by injection hc)), if_neg h]

theorem countId_eq_zero {x : String} : ∀ {l : GMap},
    x ∉ l.map (fun p => p.2.id) → countId x l = 0 := by
  intro l
  induction l with
  | nil =>
    intro _
    rfl
  | cons p t ih =>
    intro h
    rw [List.map_cons, List.mem_cons] at h
    push_neg at h
    rw [countId, if_neg (fun hc => h.1 hc.symm), ih h.2]

theorem countId_eq_one : ∀ {l : GMap} {k : String} {g : GoogleEvent},
    (l.map (fun p => p.2.id)).Nodup → (k, g) ∈ l → countId g.id l = 1 := by
  intro l
  induction l with
  | nil =>
    intro k g _ h
    cases h
  | cons p t ih =>
    intro k g hnd hm
    rw [List.map_cons, List.nodup_cons] at hnd
    obtain ⟨hp, ht⟩ := hnd
    rcases List.mem_cons.mp hm with heq | hmem
    · have hz : g.id ∉ t.map (fun q => q.2.id) := by
        intro hcontra
        rw [← heq] at hp
        exact hp hcontra
      rw [countId, ← heq, if_pos rfl, countId_eq_zero hz]
    · have hgid : g.id ∈ t.map (fun p => p.2.id) :=
        List.mem_map.mpr ⟨(k, g), hmem, rfl⟩
      have hne : p.2.id ≠ g.id := fun hc => hp (hc ▸ hgid)
      rw [countId, if_neg hne, ih ht hmem, Nat.zero_add]

/-! ## Claims C1, C2 and C10 -/

/-- Claim C1: with pairwise distinct canonical identifiers, a canonical
event whose identifier is a key of the destination mapping yields exactly
an update (targeting the matched destination id, with the full new body)
when the stored hash differs, and no mutation otherwise, and its entry is
removed from the working mapping; an unmatched canonical event yields
exactly one import with the full body. -/
theorem claim_C1 (bodies : List EventBody) (m : GMap)
    (hnd : (bodies.map EventBody.iCalUID).Nodup) (c : EventBody) (hc : c ∈ bodies) :
    (∀ g, dlookup c.iCalUID m = some g →
      mutsFor c.iCalUID (runSync bodies m) =
          (if c.description ≠ g.description.getD "" then [Mutation.update g.id c] else []) ∧
        dlookup c.iCalUID (processEvents bodies m).1 = none) ∧
    (dlookup c.iCalUID m = none →
      mutsFor c.iCalUID (runSync bodies m) = [Mutation.importNew c]) := by
  have hmain := runSync_mutsFor bodies m hnd c hc
  constructor
  · intro g hg
    constructor
    · rw [hmain]
      simp only [stepMuts, hg]
    · rw [processEvents_fst, dlookup_dropKeys,
        if_pos (List.mem_map_of_mem EventBody.iCalUID hc)]
  · intro hg
    rw [hmain]
    simp only [stepMuts, hg]

/-- Claim C2: every destination entry whose identifier is matched by no
canonical event is deleted exactly once, and a matched destination entry is
never deleted (destination ids being pairwise distinct). -/
theorem claim_C2 (bodies : List EventBody) (m : GMap)
    (hids : (m.map (fun p => p.2.id)).Nodup) (k : String) (g : GoogleEvent)
    (hm : (k, g) ∈ m) :
    (k ∉ bodies.map EventBody.iCalUID →
      countMut (Mutation.delete g.id) (runSync bodies m) = 1) ∧
    (k ∈ bodies.map EventBody.iCalUID → Mutation.delete g.id ∉ runSync bodies m) := by
  have hrem : (processEvents bodies m).1 = dropKeys (bodies.map EventBody.iCalUID) m :=
    processEvents_fst bodies m
  constructor
  · intro hk
    simp only [runSync]
    rw [countMut_append, countMut_eq_zero (processEvents_no_delete bodies m), hrem,
      countMut_delete_map]
    have hmem : (k, g) ∈ dropKeys (bodies.map EventBody.iCalUID) m :=
      (mem_dropKeys _ _).mpr ⟨hm, hk⟩
    have hnd' : ((dropKeys (bodies.map EventBody.iCalUID) m).map (fun p => p.2.id)).Nodup :=
      hids.sublist ((dropKeys_sublist _ m).map _)
    rw [countId_eq_one hnd' hmem]
  · intro hk
    simp only [runSync]
    intro hmem
    rcases List.mem_append.mp hmem with h1 | h2
    · exact processEvents_no_delete bodies m h1
    · rw [hrem] at h2
      obtain ⟨p, hp, hpe⟩ := List.mem_map.mp h2
      have hid : p.2.id = g.id := by injection hpe
      obtain ⟨hpm, hpk⟩ := (mem_dropKeys _ _).mp hp
      have hpg : p = (k, g) := List.inj_on_of_nodup_map hids hpm hm hid
      exact hpk (by rw [hpg]; exact hk)

/-- Claim C10: a canonical event matched to a destination event with no
stored description is always updated: the missing hash reads as the empty
string while the content hash has 40 hexadecimal characters (a property of
the external SHA-1 hex digest, taken as the hypothesis on `sha1`), so the
comparison always differs. -/
theorem claim_C10 (sha1 : String → String) (hlen : ∀ s, (sha1 s).length = 40)
    (calAddr : String) (tzOff : Int → Int) (events : List ExchangeEvent)
    (hnd : (events.map ExchangeEvent.id).Nodup) (m : GMap) (e : ExchangeEvent)
    (he : e ∈ events) (g : GoogleEvent)
    (hg : dlookup (transform_event sha1 calAddr tzOff e).iCalUID m = some g)
    (hdesc : g.description = none) :
    mutsFor (transform_event sha1 calAddr tzOff e).iCalUID
        (runSync (events.map (transform_event sha1 calAddr tzOff)) m)
      = [Mutation.update g.id (transform_event sha1 calAddr tzOff e)] := by
  have hnd' : ((events.map (transform_event sha1 calAddr tzOff)).map EventBody.iCalUID).Nodup := by
    rw [List.map_map]
    have hfun : (EventBody.iCalUID ∘ transform_event sha1 calAddr tzOff) = ExchangeEvent.id :=
      funext (fun ev => transform_iCalUID sha1 calAddr tzOff ev)
    rw [hfun]
    exact hnd
  have hc : transform_event sha1 calAddr tzOff e ∈ events.map (transform_event sha1 calAddr tzOff) :=
    List.mem_map_of_mem _ he
  have hmain := runSync_mutsFor _ m hnd' _ hc
  have hne : (transform_event sha1 calAddr tzOff e).description ≠ g.description.getD "" := by
    rw [hdesc]
    intro hc0
    have hl := hlen (serializeNoDesc (transform_event sha1 calAddr tzOff e))
    rw [show (transform_event sha1 calAddr tzOff e).description
        = sha1 (serializeNoDesc (transform_event sha1 calAddr tzOff e)) from rfl] at hc0
    rw [hc0] at hl
    simp at hl
  rw [hmain]
  simp only [stepMuts, hg, if_pos hne]

/-! ## Sample data and witnesses for C1, C2 and C10 -/

/-- A canonical body used by reconciler witnesses. -/
def sampleBody1 : EventBody :=
  { iCalUID := "u1", summary := "s", location := "l",
    start := TimeField.timed ("1970-01-01T00:00:00+00:00") ("UTC"),
    end_ := TimeField.timed ("1970-01-01T00:00:01+00:00") ("UTC"),
    organizer := (none, none), attendees := [], remindersUseDefault := true,
    description := "h1" }

/-- A matched destination event with a stale hash. -/
def sampleG1 : GoogleEvent := { id := "g1", summary := "s", description := some "h0" }

/-- An orphan destination event. -/
def sampleG2 : GoogleEvent := { id := "g2", summary := "t", description := some "x" }

/-- A destination mapping with one stale matched entry and one orphan. -/
def sampleMap1 : GMap := [("u1", sampleG1), ("zz", sampleG2)]

/-- Claim C1 witness: the matched stale entry gets exactly one update and
its key leaves the working mapping. -/
theorem claim_C1_witness :
    mutsFor sampleBody1.iCalUID (runSync [sampleBody1] sampleMap1)
        = [Mutation.update sampleG1.id sampleBody1] ∧
      dlookup sampleBody1.iCalUID (processEvents [sampleBody1] sampleMap1).1 = none := by
  have h := (claim_C1 [sampleBody1] sampleMap1 (by decide) sampleBody1
    (List.mem_cons_self _ _)).1 sampleG1 (by decide)
  refine ⟨?_, h.2⟩
  rw [h.1]
  decide

/-- Claim C2 witness: the orphan entry is deleted exactly once and the
matched entry is never deleted. -/
theorem claim_C2_witness :
    countMut (Mutation.delete sampleG2.id) (runSync [sampleBody1] sampleMap1) = 1 ∧
      Mutation.delete sampleG1.id ∉ runSync [sampleBody1] sampleMap1 := by
  constructor
  · exact (claim_C2 [sampleBody1] sampleMap1 (by decide) ("zz") sampleG2
      (by decide)).1 (by decide)
  · exact (claim_C2 [sampleBody1] sampleMap1 (by decide) ("u1") sampleG1
      (by decide)).2 (by decide)

/-- A 40-character stand-in for the external SHA-1 hex digest. -/
def sha40 : String → String := fun _ => "0123456789012345678901234567890123456789"

/-- A source event matched to a destination event with no description. -/
def sampleEvent10 : ExchangeEvent :=
  { id := "u1", subject := "s", location := "l", start := 0, end_ := 1,
    organizer := none, attendees := [] }

/-- A destination mapping whose matched event has no stored description. -/
def sampleMap10 : GMap := [("u1", { id := "g1", summary := "s", description := none })]

/-! ## Replaying the mutations onto the destination mapping -/

theorem applyMuts_append (newId : EventBody → String) : ∀ (l1 l2 : List Mutation) (m : GMap),
    applyMuts newId m (l1 ++ l2) = applyMuts newId (applyMuts newId m l1) l2 := by
  intro l1
  induction l1 with
  | nil =>
    intro l2 m
    rfl
  | cons mu t ih =>
    intro l2 m
    show applyMuts newId (applyOne newId m mu) (t ++ l2) = _
    rw [ih]
    rfl

theorem mem_delById {eid : String} {q : String × GoogleEvent} : ∀ {l : GMap},
    q ∈ delById eid l ↔ q ∈ l ∧ q.2.id ≠ eid := by
  intro l
  induction l with
  | nil => simp [delById]
  | cons p t ih =>
    by_cases h : p.2.id = eid
    · rw [delById, if_pos h, ih]
      simp only [List.mem_cons]
      constructor
      · rintro ⟨hq, hne⟩
        exact ⟨Or.inr hq, hne⟩
      · rintro ⟨hq | hq, hne⟩
        · subst hq
          exact absurd h hne
        · exact ⟨hq, hne⟩
    · rw [delById, if_neg h]
      simp only [List.mem_cons, ih]
      constructor
      · rintro (rfl | ⟨hq, hne⟩)
        · exact ⟨Or.inl rfl, h⟩
        · exact ⟨Or.inr hq, hne⟩
      · rintro ⟨rfl | hq, hne⟩
        · exact Or.inl rfl
        · exact Or.inr ⟨hq, hne⟩

theorem delById_sublist (eid : String) : ∀ (l : GMap), List.Sublist (delById eid l) l := by
  intro l
  induction l with
  | nil => exact List.Sublist.refl []
  | cons p t ih =>
    by_cases h : p.2.id = eid
    · rw [delById, if_pos h]
      exact ih.cons p
    · rw [delById, if_neg h]
      exact ih.cons₂ p

theorem mem_applyDeletes (newId : EventBody → String) : ∀ (rem : GMap) (m1 : GMap)
    (q : String × GoogleEvent),
    q ∈ applyMuts newId m1 (rem.map (fun p => Mutation.delete p.2.id)) ↔
      q ∈ m1 ∧ ∀ p ∈ rem, q.2.id ≠ p.2.id := by
  intro rem
  induction rem with
  | nil =>
    intro m1 q
    simp [applyMuts]
  | cons p t ih =>
    intro m1 q
    rw [List.map_cons]
    show q ∈ applyMuts newId (delById p.2.id m1) (t.map (fun p => Mutation.delete p.2.id)) ↔ _
    rw [ih (delById p.2.id m1) q]
    rw [mem_delById]
    constructor
    · rintro ⟨⟨hq, hne⟩, hall⟩
      refine ⟨hq, ?_⟩
      intro p' hp'
      rcases List.mem_cons.mp hp' with rfl | hp''
      · exact hne
      · exact hall p' hp''
    · rintro ⟨hq, hall⟩
      exact ⟨⟨hq, hall p (List.mem_cons_self p t)⟩,
        fun p' hp' => hall p' (List.mem_cons_of_mem p hp')⟩

theorem applyDeletes_sublist (newId : EventBody → String) : ∀ (rem : GMap) (m1 : GMap),
    List.Sublist (applyMuts newId m1 (rem.map (fun p => Mutation.delete p.2.id))) m1 := by
  intro rem
  induction rem with
  | nil =>
    intro m1
    exact List.Sublist.refl m1
  | cons p t ih =>
    intro m1
    rw [List.map_cons]
    show List.Sublist
      (applyMuts newId (delById p.2.id m1) (t.map (fun p => Mutation.delete p.2.id))) m1
    exact (ih (delById p.2.id m1)).trans (delById_sublist p.2.id m1)

theorem dlookup_mapUpd {k eid : String} {b : EventBody} : ∀ {m : GMap},
    dlookup k (mapUpd eid b m) =
      (dlookup k m).map (fun v => if v.id = eid then mkEvent eid b else v) := by
  intro m
  induction m with
  | nil => rfl
  | cons p t ih =>
    show dlookup k ((if p.2.id = eid then (p.1, mkEvent eid b) else p) :: mapUpd eid b t)
      = (dlookup k (p :: t)).map (fun v => if v.id = eid then mkEvent eid b else v)
    by_cases hid : p.2.id = eid <;> by_cases hk : p.1 = k
    · rw [if_pos hid, dlookup, dlookup, if_pos hk, if_pos hk]
      show some (mkEvent eid b) = some (if p.2.id = eid then mkEvent eid b else p.2)
      rw [if_pos hid]
    · rw [if_pos hid, dlookup, dlookup, if_neg hk, if_neg hk]
      exact ih
    · rw [if_neg hid, dlookup, dlookup, if_pos hk, if_pos hk]
      show some p.2 = some (if p.2.id = eid then mkEvent eid b else p.2)
      rw [if_neg hid]
    · rw [if_neg hid, dlookup, dlookup, if_neg hk, if_neg hk]
      exact ih

theorem keys_mapUpd (eid : String) (b : EventBody) : ∀ (m : GMap),
    (mapUpd eid b m).map Prod.fst = m.map Prod.fst := by
  intro m
  induction m with
  | nil => rfl
  | cons p t ih =>
    show ((if p.2.id = eid then (p.1, mkEvent eid b) else p) :: mapUpd eid b t).map Prod.fst
      = (p :: t).map Prod.fst
    rw [List.map_cons, List.map_cons, ih]
    congr 1
    by_cases hid : p.2.id = eid
    · rw [if_pos hid]
    · rw [if_neg hid]

theorem mem_mapUpd {eid : String} {b : EventBody} {q : String × GoogleEvent} {m : GMap}
    (h : q ∈ mapUpd eid b m) :
    ∃ p, p ∈ m ∧ q = (if p.2.id = eid then (p.1, mkEvent eid b) else p) := by
  obtain ⟨p, hp, he⟩ := List.mem_map.mp h
  exact ⟨p, hp, he.symm⟩

theorem dlookup_append_some {k : String} {v : GoogleEvent} : ∀ {l1 l2 : GMap},
    dlookup k l1 = some v → dlookup k (l1 ++ l2) = some v := by
  intro l1 l2
  induction l1 with
  | nil =>
    intro h
    cases h
  | cons p t ih =>
    intro h
    by_cases hk : p.1 = k
    · rw [dlookup, if_pos hk] at h
      show dlookup k (p :: (t ++ l2)) = some v
      rw [dlookup, if_pos hk]
      exact h
    · rw [dlookup, if_neg hk] at h
      show dlookup k (p :: (t ++ l2)) = some v
      rw [dlookup, if_neg hk]
      exact ih h

theorem dlookup_append_none {k : String} : ∀ {l1 : GMap} (l2 : GMap),
    dlookup k l1 = none → dlookup k (l1 ++ l2) = dlookup k l2 := by
  intro l1 l2
  induction l1 with
  | nil =>
    intro _
    rfl
  | cons p t ih =>
    intro h
    by_cases hk : p.1 = k
    · rw [dlookup, if_pos hk] at h
      cases h
    · rw [dlookup, if_neg hk] at h
      show dlookup k (p :: (t ++ l2)) = dlookup k l2
      rw [dlookup, if_neg hk]
      exact ih h

theorem dlookup_single_ne {k k' : String} {e : GoogleEvent} (h : k ≠ k') :
    dlookup k [(k', e)] = none := by
  rw [dlookup, if_neg (fun hc : k' = k => h hc.symm), dlookup]

theorem dlookup_of_mem_nodup {k : String} {g : GoogleEvent} : ∀ {m : GMap},
    (k, g) ∈ m → (m.map Prod.fst).Nodup → dlookup k m = some g := by
  intro m
  induction m with
  | nil =>
    intro h _
    cases h
  | cons p t ih =>
    intro hm hnd
    rw [List.map_cons, List.nodup_cons] at hnd
    obtain ⟨hp, ht⟩ := hnd
    rcases List.mem_cons.mp hm with heq | hmem
    · rw [dlookup, if_pos (by rw [← heq])]
      rw [← heq]
    · have hk : p.1 ≠ k := by
        intro hc
        apply hp
        rw [hc]
        exact List.mem_map.mpr ⟨(k, g), hmem, rfl⟩
      rw [dlookup, if_neg hk, ih hmem ht]

/-- Replaying the create/update decisions of one pass (each taken against
the original mapping `m`) onto a working copy `mc` that agrees with `m` on
the processed keys: afterwards every processed body is found under its
identifier with the matching stored hash and an id that only `m`-entries
with the same key carry; entries are either inherited from `mc` or keyed by
a processed identifier; keys stay pairwise distinct; lookups of unprocessed
keys are unchanged; and destination ids still determine the key they had in
`m`. -/
theorem phase1_spec (m : GMap) (hids : (m.map (fun p => p.2.id)).Nodup)
    (newId : EventBody → String) (allU : List String) :
    ∀ (rest : List EventBody) (mc : GMap),
    (rest.map EventBody.iCalUID).Nodup →
    (∀ b ∈ rest, ∀ q ∈ m, newId b ≠ q.2.id) →
    (mc.map Prod.fst).Nodup →
    (∀ b ∈ rest, dlookup b.iCalUID mc = dlookup b.iCalUID m) →
    (∀ p ∈ mc, ∀ q ∈ m, p.2.id = q.2.id → p.1 = q.1) →
    (∀ b ∈ rest, b.iCalUID ∈ allU) →
    ((∀ b ∈ rest, ∃ g, dlookup b.iCalUID (applyMuts newId mc (flatSteps rest m)) = some g ∧
        g.description.getD "" = b.description ∧
        ∀ q ∈ m, g.id = q.2.id → q.1 = b.iCalUID) ∧
      (∀ p ∈ applyMuts newId mc (flatSteps rest m), p ∈ mc ∨ p.1 ∈ allU) ∧
      ((applyMuts newId mc (flatSteps rest m)).map Prod.fst).Nodup ∧
      (∀ k, k ∉ rest.map EventBody.iCalUID →
        dlookup k (applyMuts newId mc (flatSteps rest m)) = dlookup k mc) ∧
      (∀ p ∈ applyMuts newId mc (flatSteps rest m), ∀ q ∈ m,
        p.2.id = q.2.id → p.1 = q.1)) := by
  intro rest
  induction rest with
  | nil =>
    intro mc _ _ hkeys _ hpid _
    exact ⟨fun b hb => absurd hb (List.not_mem_nil b), fun p hp => Or.inl hp, hkeys,
      fun k _ => rfl, hpid⟩
  | cons b rest' ih =>
    intro mc hnd hfresh hkeys hmatch hpid hsub
    rw [List.map_cons, List.nodup_cons] at hnd
    obtain ⟨hb, hnd'⟩ := hnd
    have hfresh2 : ∀ b' ∈ rest', ∀ q ∈ m, newId b' ≠ q.2.id :=
      fun b' hb' => hfresh b' (List.mem_cons_of_mem b hb')
    have hsub2 : ∀ b' ∈ rest', b'.iCalUID ∈ allU :=
      fun b' hb' => hsub b' (List.mem_cons_of_mem b hb')
    have hmatchR : ∀ b' ∈ rest', dlookup b'.iCalUID mc = dlookup b'.iCalUID m :=
      fun b' hb' => hmatch b' (List.mem_cons_of_mem b hb')
    have hlb : dlookup b.iCalUID mc = dlookup b.iCalUID m :=
      hmatch b (List.mem_cons_self b rest')
    have happ : applyMuts newId mc (flatSteps (b :: rest') m)
        = applyMuts newId (applyMuts newId mc (stepMuts b m)) (flatSteps rest' m) := by
      show applyMuts newId mc (stepMuts b m ++ flatSteps rest' m) = _
      rw [applyMuts_append]
    cases hl : dlookup b.iCalUID m with
    | some g =>
      have hgm : (b.iCalUID, g) ∈ m := dlookup_mem hl
      by_cases hdiff : b.description ≠ g.description.getD ""
      · have hstep : stepMuts b m = [Mutation.update g.id b] := by
          simp only [stepMuts, hl, if_pos hdiff]
        have hone : applyMuts newId mc (stepMuts b m) = mapUpd g.id b mc := by
          rw [hstep]
          rfl
        have hkeys2 : ((mapUpd g.id b mc).map Prod.fst).Nodup := by
          rw [keys_mapUpd]
          exact hkeys
        have hmatch2 : ∀ b' ∈ rest', dlookup b'.iCalUID (mapUpd g.id b mc)
            = dlookup b'.iCalUID m := by
          intro b' hb'
          rw [dlookup_mapUpd, hmatchR b' hb']
          cases hlv : dlookup b'.iCalUID m with
          | none => rfl
          | some v =>
            have hvm : (b'.iCalUID, v) ∈ m := dlookup_mem hlv
            have hvne : v.id ≠ g.id := by
              intro hc
              have heq := List.inj_on_of_nodup_map hids hvm hgm hc
              have huid : b'.iCalUID = b.iCalUID := congrArg Prod.fst heq
              exact hb (huid ▸ List.mem_map_of_mem EventBody.iCalUID hb')
            show some (if v.id = g.id then mkEvent g.id b else v) = some v
            rw [if_neg hvne]
        have hpid2 : ∀ p ∈ mapUpd g.id b mc, ∀ q ∈ m, p.2.id = q.2.id → p.1 = q.1 := by
          intro p hp q hq hpq
          obtain ⟨p0, hp0, hpe⟩ := mem_mapUpd hp
          by_cases h0 : p0.2.id = g.id
          · rw [if_pos h0] at hpe
            rw [hpe] at hpq ⊢
            have hqe : q = (b.iCalUID, g) :=
              List.inj_on_of_nodup_map hids hq hgm hpq.symm
            have hp01 : p0.1 = b.iCalUID := hpid p0 hp0 (b.iCalUID, g) hgm h0
            rw [hqe]
            exact hp01
          · rw [if_neg h0] at hpe
            rw [hpe] at hpq ⊢
            exact hpid p0 hp0 q hq hpq
        obtain ⟨hi, hii, hiii, hiv, hv⟩ :=
          ih (mapUpd g.id b mc) hnd' hfresh2 hkeys2 hmatch2 hpid2 hsub2
        rw [happ, hone]
        refine ⟨?_, ?_, hiii, ?_, hv⟩
        · intro b0 hb0
          rcases List.mem_cons.mp hb0 with rfl | hb0'
          · refine ⟨mkEvent g.id b0, ?_, rfl, ?_⟩
            · rw [hiv b0.iCalUID hb, dlookup_mapUpd, hlb, hl]
              show some (if g.id = g.id then mkEvent g.id b0 else g) = some (mkEvent g.id b0)
              rw [if_pos rfl]
            · intro q hq hqe
              have heq := List.inj_on_of_nodup_map hids hq hgm hqe.symm
              rw [heq]
          · exact hi b0 hb0'
        · intro p hp
          rcases hii p hp with hp2 | hp2
          · obtain ⟨p0, hp0, hpe⟩ := mem_mapUpd hp2
            by_cases h0 : p0.2.id = g.id
            · rw [if_pos h0] at hpe
              right
              rw [hpe]
              show p0.1 ∈ allU
              rw [hpid p0 hp0 (b.iCalUID, g) hgm h0]
              exact hsub b (List.mem_cons_self b rest')
            · rw [if_neg h0] at hpe
              left
              rw [hpe]
              exact hp0
          · exact Or.inr hp2
        · intro k hk
          rw [List.map_cons, List.mem_cons] at hk
          push_neg at hk
          rw [hiv k hk.2, dlookup_mapUpd]
          cases hlv : dlookup k mc with
          | none => rfl
          | some v =>
            have hvm : (k, v) ∈ mc := dlookup_mem hlv
            have hvne : v.id ≠ g.id := by
              intro hc
              exact hk.1 (hpid (k, v) hvm (b.iCalUID, g) hgm hc)
            show some (if v.id = g.id then mkEvent g.id b else v) = some v
            rw [if_neg hvne]
      · have hstep : stepMuts b m = [] := by
          simp only [stepMuts, hl, if_neg hdiff]
        have hone : applyMuts newId mc (stepMuts b m) = mc := by
          rw [hstep]
          rfl
        obtain ⟨hi, hii, hiii, hiv, hv⟩ := ih mc hnd' hfresh2 hkeys hmatchR hpid hsub2
        rw [happ, hone]
        refine ⟨?_, ?_, hiii, ?_, hv⟩
        · intro b0 hb0
          rcases List.mem_cons.mp hb0 with rfl | hb0'
          · refine ⟨g, ?_, ?_, ?_⟩
            · rw [hiv b0.iCalUID hb, hlb, hl]
            · exact (not_not.mp hdiff).symm
            · intro q hq hqe
              have heq := List.inj_on_of_nodup_map hids hq hgm hqe.symm
              rw [heq]
          · exact hi b0 hb0'
        · intro p hp
          exact hii p hp
        · intro k hk
          rw [List.map_cons, List.mem_cons] at hk
          push_neg at hk
          exact hiv k hk.2
    | none =>
      have hlbm : dlookup b.iCalUID mc = none := by rw [hlb, hl]
      have hstep : stepMuts b m = [Mutation.importNew b] := by
        simp only [stepMuts, hl]
      have hone : applyMuts newId mc (stepMuts b m)
          = mc ++ [(b.iCalUID, mkEvent (newId b) b)] := by
        rw [hstep]
        rfl
      have hbk : b.iCalUID ∉ mc.map Prod.fst := by
        intro hc
        obtain ⟨p, hp, hpe⟩ := List.mem_map.mp hc
        exact (dlookup_eq_none_iff.mp hlbm) p hp hpe
      have hkeys2 : ((mc ++ [(b.iCalUID, mkEvent (newId b) b)]).map Prod.fst).Nodup := by
        rw [List.map_append]
        refine hkeys.append (by simp) ?_
        intro a ha hain
        have hab : a = b.iCalUID := by simpa using hain
        rw [hab] at ha
        exact hbk ha
      have hmatch2 : ∀ b' ∈ rest',
          dlookup b'.iCalUID (mc ++ [(b.iCalUID, mkEvent (newId b) b)])
            = dlookup b'.iCalUID m := by
        intro b' hb'
        have hneq : b'.iCalUID ≠ b.iCalUID :=
          fun hc => hb (hc ▸ List.mem_map_of_mem EventBody.iCalUID hb')
        cases hlv : dlookup b'.iCalUID mc with
        | some v =>
          rw [dlookup_append_some hlv, ← hlv, hmatchR b' hb']
        | none =>
          rw [dlookup_append_none _ hlv, dlookup_single_ne hneq, ← hmatchR b' hb', hlv]
      have hpid2 : ∀ p ∈ mc ++ [(b.iCalUID, mkEvent (newId b) b)], ∀ q ∈ m,
          p.2.id = q.2.id → p.1 = q.1 := by
        intro p hp q hq hpq
        rcases List.mem_append.mp hp with hp1 | hp1
        · exact hpid p hp1 q hq hpq
        · rw [List.mem_singleton] at hp1
          subst hp1
          exact absurd hpq (hfresh b (List.mem_cons_self b rest') q hq)
      obtain ⟨hi, hii, hiii, hiv, hv⟩ :=
        ih (mc ++ [(b.iCalUID, mkEvent (newId b) b)]) hnd' hfresh2 hkeys2 hmatch2 hpid2 hsub2
      rw [happ, hone]
      refine ⟨?_, ?_, hiii, ?_, hv⟩
      · intro b0 hb0
        rcases List.mem_cons.mp hb0 with rfl | hb0'
        · refine ⟨mkEvent (newId b0) b0, ?_, rfl, ?_⟩
          · rw [hiv b0.iCalUID hb, dlookup_append_none _ hlbm, dlookup, if_pos rfl]
          · intro q hq hqe
            exact absurd hqe (hfresh b0 (List.mem_cons_self b0 rest') q hq)
        · exact hi b0 hb0'
      · intro p hp
        rcases hii p hp with hp2 | hp2
        · rcases List.mem_append.mp hp2 with hp3 | hp3
          · exact Or.inl hp3
          · rw [List.mem_singleton] at hp3
            right
            rw [hp3]
            exact hsub b (List.mem_cons_self b rest')
        · exact Or.inr hp2
      · intro k hk
        rw [List.map_cons, List.mem_cons] at hk
        push_neg at hk
        rw [hiv k hk.2]
        cases hlv : dlookup k mc with
        | some v => rw [dlookup_append_some hlv]
        | none => rw [dlookup_append_none _ hlv, dlookup_single_ne hk.1]

/-- When every destination entry's key is a canonical identifier and every
canonical event finds its entry with a matching stored hash, the pass
consumes the whole mapping and issues no mutation. -/
theorem processEvents_all_matched : ∀ (bodies : List EventBody) (m : GMap),
    (bodies.map EventBody.iCalUID).Nodup →
    (∀ p ∈ m, p.1 ∈ bodies.map EventBody.iCalUID) →
    (∀ b ∈ bodies, ∃ g, dlookup b.iCalUID m = some g ∧
      g.description.getD "" = b.description) →
    processEvents bodies m = ([], []) := by
  intro bodies
  induction bodies with
  | nil =>
    intro m _ hkeys _
    have hm : m = [] := by
      cases m with
      | nil => rfl
      | cons p t =>
        exact absurd (hkeys p (List.mem_cons_self p t)) (List.not_mem_nil p.1)
    rw [hm]
    rfl
  | cons b rest ih =>
    intro m hnd hkeys hlook
    rw [List.map_cons, List.nodup_cons] at hnd
    obtain ⟨hb, hnd'⟩ := hnd
    obtain ⟨g, hg, hdesc⟩ := hlook b (List.mem_cons_self b rest)
    have hcond : ¬ (b.description ≠ g.description.getD "") := not_not_intro hdesc.symm
    have hrec : processEvents rest (dpop b.iCalUID m) = ([], []) := by
      apply ih
      · exact hnd'
      · intro p hp
        obtain ⟨hpm, hpne⟩ := mem_dpop.mp hp
        have hpin := hkeys p hpm
        rw [List.map_cons] at hpin
        rcases List.mem_cons.mp hpin with hc | hc
        · exact absurd hc hpne
        · exact hc
      · intro b' hb'
        have hne : b'.iCalUID ≠ b.iCalUID :=
          fun hc => hb (hc ▸ List.mem_map_of_mem EventBody.iCalUID hb')
        obtain ⟨g', hg', hd'⟩ := hlook b' (List.mem_cons_of_mem b hb')
        exact ⟨g', by rw [dlookup_dpop_ne hne, hg'], hd'⟩
    simp only [processEvents, hg]
    rw [hrec, if_neg hcond]
    rfl

/-- After replaying the mutations of one pass, a second pass over the same
canonical bodies issues no mutations. -/
theorem runSync_idempotent (bodies : List EventBody) (m : GMap) (newId : EventBody → String)
    (hnd : (bodies.map EventBody.iCalUID).Nodup)
    (hkeys : (m.map Prod.fst).Nodup)
    (hids : (m.map (fun p => p.2.id)).Nodup)
    (hfresh : ∀ b ∈ bodies, ∀ q ∈ m, newId b ≠ q.2.id) :
    runSync bodies (applyMuts newId m (runSync bodies m)) = [] := by
  have hpid0 : ∀ p ∈ m, ∀ q ∈ m, p.2.id = q.2.id → p.1 = q.1 := by
    intro p hp q hq hpq
    rw [List.inj_on_of_nodup_map hids hp hq hpq]
  obtain ⟨hi, hii, hiii, hiv, hv⟩ := phase1_spec m hids newId (bodies.map EventBody.iCalUID)
    bodies m hnd hfresh hkeys (fun b _ => rfl) hpid0
    (fun b hb => List.mem_map_of_mem EventBody.iCalUID hb)
  have hrun : runSync bodies m = flatSteps bodies m
      ++ (dropKeys (bodies.map EventBody.iCalUID) m).map (fun p => Mutation.delete p.2.id) := by
    simp only [runSync]
    rw [processEvents_snd bodies m hnd, processEvents_fst]
  rw [hrun, applyMuts_append]
  have hkeysFin : ∀ p ∈ applyMuts newId (applyMuts newId m (flatSteps bodies m))
      ((dropKeys (bodies.map EventBody.iCalUID) m).map (fun p => Mutation.delete p.2.id)),
      p.1 ∈ bodies.map EventBody.iCalUID := by
    intro p hp
    obtain ⟨hp1, hsafe⟩ := (mem_applyDeletes newId _ _ p).mp hp
    rcases hii p hp1 with hpm | hpu
    · by_cases hpin : p.1 ∈ bodies.map EventBody.iCalUID
      · exact hpin
      · exact absurd rfl
          (hsafe p ((mem_dropKeys _ _).mpr ⟨hpm, hpin⟩))
    · exact hpu
  have hlookFin : ∀ b ∈ bodies, ∃ g,
      dlookup b.iCalUID (applyMuts newId (applyMuts newId m (flatSteps bodies m))
        ((dropKeys (bodies.map EventBody.iCalUID) m).map (fun p => Mutation.delete p.2.id)))
        = some g ∧ g.description.getD "" = b.description := by
    intro b hb
    obtain ⟨g, hg1, hgd, hgsafe⟩ := hi b hb
    have hgm1 : (b.iCalUID, g) ∈ applyMuts newId m (flatSteps bodies m) := dlookup_mem hg1
    have hsafe : ∀ p ∈ dropKeys (bodies.map EventBody.iCalUID) m,
        (b.iCalUID, g).2.id ≠ p.2.id := by
      intro p hprem hc
      obtain ⟨hpm, hpnot⟩ := (mem_dropKeys _ _).mp hprem
      exact hpnot ((hgsafe p hpm hc).symm ▸ List.mem_map_of_mem EventBody.iCalUID hb)
    have hgmFin : (b.iCalUID, g) ∈ applyMuts newId (applyMuts newId m (flatSteps bodies m))
        ((dropKeys (bodies.map EventBody.iCalUID) m).map (fun p => Mutation.delete p.2.id)) :=
      (mem_applyDeletes newId _ _ _).mpr ⟨hgm1, hsafe⟩
    have hndFin : ((applyMuts newId (applyMuts newId m (flatSteps bodies m))
        ((dropKeys (bodies.map EventBody.iCalUID) m).map
          (fun p => Mutation.delete p.2.id))).map Prod.fst).Nodup :=
      hiii.sublist ((applyDeletes_sublist newId _ _).map Prod.fst)
    exact ⟨g, dlookup_of_mem_nodup hgmFin hndFin, hgd⟩
  have hz := processEvents_all_matched bodies _ hnd hkeysFin hlookFin
  simp only [runSync]
  rw [hz]
  rfl

/-- Claim C3: applying the first run's mutations to the destination mapping
and reconciling again with the same unchanged source events issues zero
mutations, under the system invariants: pairwise distinct source event ids,
pairwise distinct destination keys and destination-local ids, and imports
materializing with fresh destination ids. -/
theorem claim_C3 (sha1 : String → String) (calAddr : String) (tzOff : Int → Int)
    (newId : EventBody → String) (events : List ExchangeEvent) (m : GMap)
    (hnd : (events.map ExchangeEvent.id).Nodup)
    (hkeys : (m.map Prod.fst).Nodup)
    (hids : (m.map (fun p => p.2.id)).Nodup)
    (hfresh : ∀ e ∈ events, ∀ q ∈ m,
      newId (transform_event sha1 calAddr tzOff e) ≠ q.2.id) :
    runSync (events.map (transform_event sha1 calAddr tzOff))
      (applyMuts newId m
        (runSync (events.map (transform_event sha1 calAddr tzOff)) m)) = [] := by
  have hnd' : ((events.map (transform_event sha1 calAddr tzOff)).map
      EventBody.iCalUID).Nodup := by
    rw [List.map_map]
    have hfun : (EventBody.iCalUID ∘ transform_event sha1 calAddr tzOff) = ExchangeEvent.id :=
      funext (fun ev => transform_iCalUID sha1 calAddr tzOff ev)
    rw [hfun]
    exact hnd
  refine runSync_idempotent _ m newId hnd' hkeys hids ?_
  intro b hbmem q hq
  obtain ⟨e, he, hbe⟩ := List.mem_map.mp hbmem
  rw [← hbe]
  exact hfresh e he q hq

/-- The fresh destination id the destination assigns to imported bodies in
the idempotence witness. -/
def newIdW : EventBody → String := fun _ => "n1"

/-- Claim C3 witness: one source event, one stale matched destination entry
and one orphan; after the update and the delete are applied, the second run
issues nothing. -/
theorem claim_C3_witness :
    ([sampleEvent10].map ExchangeEvent.id).Nodup ∧
    (sampleMap1.map Prod.fst).Nodup ∧
    (sampleMap1.map (fun p => p.2.id)).Nodup ∧
    (∀ e ∈ [sampleEvent10], ∀ q ∈ sampleMap1,
      newIdW (transform_event sha40 ("c@d.e") (fun _ => 0) e) ≠ q.2.id) ∧
    runSync ([sampleEvent10].map (transform_event sha40 ("c@d.e") (fun _ => 0)))
      (applyMuts newIdW sampleMap1
        (runSync ([sampleEvent10].map (transform_event sha40 ("c@d.e") (fun _ => 0)))
          sampleMap1)) = [] :=
  ⟨by decide, by decide, by decide, by decide,
   claim_C3 sha40 ("c@d.e") (fun _ => 0) newIdW [sampleEvent10] sampleMap1
     (by decide) (by decide) (by decide) (by decide)⟩

/-- Claim C10 witness: the event with a description-less destination match
is updated. -/
theorem claim_C10_witness :
    (∀ s, (sha40 s).length = 40) ∧
    mutsFor (transform_event sha40 ("c@d.e") (fun _ => 0) sampleEvent10).iCalUID
        (runSync ([sampleEvent10].map (transform_event sha40 ("c@d.e") (fun _ => 0)))
          sampleMap10)
      = [Mutation.update ("g1")
          (transform_event sha40 ("c@d.e") (fun _ => 0) sampleEvent10)] := by
  refine ⟨fun _ => rfl, ?_⟩
  exact claim_C10 sha40 (fun _ => rfl) ("c@d.e") (fun _ => 0) [sampleEvent10] (by decide)
    sampleMap10 sampleEvent10 (List.mem_cons_self _ _)
    { id := "g1", summary := "s", description := none } (by decide) rfl

end CalendarSync
